import Mathlib

/-!
Verification of the heart-disease XGBoost preprocessing pipeline
(`statquest_xgboost_in_python_heart_disease.py`).

The script is linear glue code over pandas data frames.  We embed the data
frame as a list of named, typed columns whose cells are either a numeric
value or the textual sentinel marker `?`, and we embed each preprocessing
step of the script as a function on that representation:

* the missing-value fill `df.loc[(df['ca'] == '?'), 'ca'] = 0` (and the same
  for `thal`),
* the split into feature matrix `X` (drop `hd`) and target `y` (copy `hd`),
* one-hot expansion `pd.get_dummies(X, columns=['cp','restecg','slope','thal'])`,
* target binarization `y[y > 0] = 1`,
* numeric coercion `X_encoded['ca'] = pd.to_numeric(X_encoded['ca'])`.

The grid search (`GridSearchCV`) is invoked on an external library and the
invocation itself is commented out in the source; it is modelled from the
spec where noted.  The xgboost training call is likewise external.
-/

namespace HeartPipeline

/-- A cell of the data frame: either a numeric value or the textual
sentinel marker `?` that stands for a missing value in the raw CSV. -/
inductive Val where
  | num (q : ℚ)
  | qmark
deriving DecidableEq

/-- The pandas dtype of a column, at the granularity the script cares
about: `float64`/`int64` collapse to `numericType`, mixed columns are
`objectType`, and one-hot indicator columns are `boolType`. -/
inductive DType where
  | numericType
  | objectType
  | boolType
deriving DecidableEq

/-- A named column of the data frame together with its dtype and cells. -/
structure Column where
  name : String
  dtype : DType
  vals : List Val
deriving DecidableEq

/-- A data frame is a list of columns; all columns of a well-formed frame
have the same number of cells (one per row). -/
abbrev DataFrame := List Column

/-- The 14 column names assigned by the script after loading the CSV. -/
def loadColumnNames : List String :=
  ["age", "sex", "cp", "restbp", "chol", "fbs", "restecg",
   "thalach", "exang", "oldpeak", "slope", "ca", "thal", "hd"]

/-- Cell-level effect of `df.loc[(df[col] == '?'), col] = 0`: a sentinel
cell becomes the number `0`, every other cell is left alone. -/
def fillQm (v : Val) : Val :=
  if v = Val.qmark then Val.num 0 else v

/-- Column-level effect of the loc-assignment on one column of the frame:
only the column with the targeted name is rewritten (its dtype is
unchanged, as in pandas, where the object dtype persists). -/
def fillColFun (n : String) (c : Column) : Column :=
  if c.name = n then { c with vals := c.vals.map fillQm } else c

/-- `df.loc[(df[n] == '?'), n] = 0` over the whole frame. -/
def fillCol (n : String) (df : DataFrame) : DataFrame :=
  df.map (fillColFun n)

/-- The missing-value resolution step of the script, lines 227-228:
first `ca` is filled, then `thal`. -/
def resolveMissing (df : DataFrame) : DataFrame :=
  fillCol "thal" (fillCol "ca" df)

/-- `df.drop(n, axis=1)`: remove every column with the given name. -/
def dropCol (n : String) (df : DataFrame) : DataFrame :=
  df.filter (fun c => decide (c.name ≠ n))

/-- `X = df.drop('hd', axis=1).copy()` (line 269). -/
def getX (df : DataFrame) : DataFrame :=
  dropCol "hd" df

/-- `y = df['hd'].copy()` (line 276): the cells of the first column named
`hd`, or the empty vector if there is none. -/
def getY (df : DataFrame) : List Val :=
  ((df.find? (fun c => decide (c.name = "hd"))).map Column.vals).getD []

/-- Cell-level effect of `y[y > 0] = 1`: a numeric cell strictly greater
than zero becomes `1`, every other cell is left alone. -/
def binVal (v : Val) : Val :=
  match v with
  | Val.num q => if 0 < q then Val.num 1 else Val.num q
  | Val.qmark => Val.qmark

/-- Target binarization, lines 398-399: `y_not_zero_index = y > 0;
y[y_not_zero_index] = 1`. -/
def binarize (y : List Val) : List Val :=
  y.map binVal

/-- Textual rendering of a cell value, used to build the names of the
one-hot indicator columns. -/
def valRepr (v : Val) : String :=
  match v with
  | Val.num q => if q.den = 1 then toString q.num else toString q.num ++ "/" ++ toString q.den
  | Val.qmark => "?"

/-- `get_dummies` names an indicator column by concatenating the original
column name, an underscore, and the category value. -/
def dummyName (n : String) (u : Val) : String :=
  n ++ "_" ++ valRepr u

/-- The indicator cell: `1` if the row's value equals the category, else `0`. -/
def indicatorVal (v u : Val) : Val :=
  if v = u then Val.num 1 else Val.num 0

/-- The distinct observed values of a column (each value once). -/
def uniques : List Val → List Val
  | [] => []
  | v :: vs => if v ∈ uniques vs then uniques vs else v :: uniques vs

/-- The group of one-hot indicator columns `get_dummies` produces for one
categorical column: one binary column per distinct observed value. -/
def dummyCols (c : Column) : List Column :=
  (uniques c.vals).map (fun u =>
    ⟨dummyName c.name u, DType.boolType, c.vals.map (fun v => indicatorVal v u)⟩)

/-- The four multi-category columns the script expands (lines 373-376). -/
def encodeCols : List String :=
  ["cp", "restecg", "slope", "thal"]

/-- `pd.get_dummies(df, columns=cols)`: the columns that are not expanded
pass through in front, followed by the indicator groups of the expanded
columns. -/
def getDummies (df : DataFrame) (cols : List String) : DataFrame :=
  df.filter (fun c => decide (c.name ∉ cols)) ++
    cols.flatMap (fun n =>
      match df.find? (fun c => decide (c.name = n)) with
      | some c => dummyCols c
      | none => [])

/-- Numeric view of a cell (the sentinel reads as `0`); used only to state
the row-sum property of an indicator group. -/
def valToRat (v : Val) : ℚ :=
  match v with
  | Val.num q => q
  | Val.qmark => 0

/-- The sum, across a group of columns, of the cells in row `i`. -/
def groupRowSum (g : List Column) (i : Nat) : ℚ :=
  (g.map (fun c => valToRat ((c.vals.get? i).getD (Val.num 0)))).sum

/-- `pd.to_numeric` on a single cell: a numeric cell is kept, the sentinel
raises (modelled by `none`). -/
def toNumericVal (v : Val) : Option Val :=
  match v with
  | Val.num q => some (Val.num q)
  | Val.qmark => none

/-- Fallible elementwise map over a column's cells. -/
def optMap (f : Val → Option Val) : List Val → Option (List Val)
  | [] => some []
  | v :: vs =>
    match f v, optMap f vs with
    | some w, some ws => some (w :: ws)
    | _, _ => none

/-- `pd.to_numeric` on a whole column: succeeds iff every cell parses, and
the resulting column has numeric dtype. -/
def toNumericColumn (c : Column) : Option Column :=
  (optMap toNumericVal c.vals).map (fun ws => ⟨c.name, DType.numericType, ws⟩)

/-- Fallible map over the columns of a frame. -/
def mapColsM (f : Column → Option Column) : DataFrame → Option DataFrame
  | [] => some []
  | c :: cs =>
    match f c, mapColsM f cs with
    | some c2, some cs2 => some (c2 :: cs2)
    | _, _ => none

/-- `X_encoded['ca'] = pd.to_numeric(X_encoded['ca'])` (line 421): the
`ca` column is coerced, every other column is untouched. -/
def toNumericCa (df : DataFrame) : Option DataFrame :=
  mapColsM (fun c => if c.name = "ca" then toNumericColumn c else some c) df

/-- The whole feature-formatting pipeline of the script, in source order:
missing-value fill, drop of the target column, one-hot expansion of the
four categorical columns, numeric coercion of `ca`. -/
def formatFeatures (df : DataFrame) : Option DataFrame :=
  toNumericCa (getDummies (getX (resolveMissing df)) encodeCols)

/-- The in-process entities of the script after the X/y split: the loaded
frame `df` and the two copies `X` and `y` made on lines 269 and 276. -/
structure PipeState where
  df : DataFrame
  X : DataFrame
  y : List Val
deriving DecidableEq

/-- The X/y split (lines 269 and 276): both `X` and `y` are `.copy()`-ed
from `df`, so they are independent values. -/
def splitStep (df : DataFrame) : PipeState :=
  ⟨df, getX df, getY df⟩

/-- The target-binarization step acting on the in-process state: it
rewrites only the separately copied target vector `y`. -/
def binarizeStep (s : PipeState) : PipeState :=
  { s with y := binarize s.y }

/-! ### Hyperparameter search

The `GridSearchCV` invocation in the source (lines 482-501) is commented
out, and the search itself lives in the external scikit-learn library, so
the selection procedure is modelled from the spec (section 4.5): full
Cartesian product of the five candidate grids, 5-fold cross-validation
averaging, best average score wins, ties broken by first-encountered
order in the grid enumeration.  The five candidate grids are the ones
written in the source's `param_grid` (lines 482-488). -/

/-- One hyperparameter configuration of the search. -/
structure HyperConfig where
  maxDepth : Nat
  nEstimators : Nat
  learningRate : ℚ
  gamma : ℚ
  regLambda : ℚ
deriving DecidableEq

/-- `'max_depth': [3, 4, 5, 6, 7, 8]` (line 483). -/
def maxDepthGrid : List Nat := [3, 4, 5, 6, 7, 8]

/-- `'n_estimators': range(50, 250, 50)` (line 484). -/
def nEstimatorsGrid : List Nat := [50, 100, 150, 200]

/-- `'learning_rate': [0.1, 0.01, 0.05]` (line 485). -/
def learningRateGrid : List ℚ := [1/10, 1/100, 1/20]

/-- `'gamma': [0, 0.25, 0.5, 1.0]` (line 486). -/
def gammaGrid : List ℚ := [0, 1/4, 1/2, 1]

/-- `'reg_lambda': [0, 1.0, 10.0, 100.0]` (line 487). -/
def regLambdaGrid : List ℚ := [0, 1, 10, 100]

/-- Modelled from the spec: the grid enumeration is the full Cartesian
product of the five candidate grids.  (The `GridSearchCV` call that would
perform the enumeration is commented out in the source and implemented by
the external library.) -/
def paramGridEnum : List HyperConfig :=
  maxDepthGrid.flatMap (fun d =>
    nEstimatorsGrid.flatMap (fun e =>
      learningRateGrid.flatMap (fun l =>
        gammaGrid.flatMap (fun g =>
          regLambdaGrid.map (fun r => ⟨d, e, l, g, r⟩)))))

/-- Modelled from the spec: 5-fold cross-validation (`cv = 5`, line 497)
assigns a configuration the average of its five per-fold scores. -/
def cvAverage (foldScore : HyperConfig → Fin 5 → ℚ) (c : HyperConfig) : ℚ :=
  (List.ofFn (fun k : Fin 5 => foldScore c k)).sum / 5

/-- Left fold keeping the incumbent best; a later candidate replaces the
incumbent only when its score is strictly larger, so ties go to the
earlier candidate. -/
def selectAux {α : Type} (f : α → ℚ) (b : α) : List α → α
  | [] => b
  | c :: l => selectAux f (if f b < f c then c else b) l

/-- Modelled from the spec: exhaustive best-score selection over a list of
candidates, first-encountered order breaking ties. -/
def selectBest {α : Type} (f : α → ℚ) : List α → Option α
  | [] => none
  | c :: l => some (selectAux f c l)

/-- Modelled from the spec: the whole hyperparameter search — evaluate
every configuration of the full grid by 5-fold cross-validation and pick
the best average score. -/
def gridSearchBest (foldScore : HyperConfig → Fin 5 → ℚ) : Option HyperConfig :=
  selectBest (cvAverage foldScore) paramGridEnum

/-! ### Keyword arguments of the optimized models

The two optimized-model constructions (lines 516-522 and 545-551) pass
their numeric hyperparameters as keyword arguments to the external
`XGBClassifier` constructor.  A keyword applies to a parameter of the
library only under the library's exact parameter name; an unrecognized
keyword is ignored and the parameter keeps its library default. -/

/-- The numeric keyword arguments of
`xgb.XGBClassifier(seed=42, objective='binary:logistic', gamma=1,
learn_rate=0.1, max_depth=3, n_estimators=200, reg_lambda=10)`
(lines 516-522; the string-valued `objective` is omitted). -/
def optimizedModelKwargs : List (String × ℚ) :=
  [("seed", 42), ("gamma", 1), ("learn_rate", 1/10),
   ("max_depth", 3), ("n_estimators", 200), ("reg_lambda", 10)]

/-- The numeric keyword arguments of the single-tree model construction
(lines 545-551), identical except `n_estimators=1`. -/
def singleTreeModelKwargs : List (String × ℚ) :=
  [("seed", 42), ("gamma", 1), ("learn_rate", 1/10),
   ("max_depth", 3), ("n_estimators", 1), ("reg_lambda", 10)]

/-- Modelled from the spec: the learning rate the library actually trains
with — the value passed under the library's parameter name
`learning_rate` if present, otherwise the library default. -/
def effectiveLearningRate (kwargs : List (String × ℚ)) (libDefault : ℚ) : ℚ :=
  (kwargs.lookup "learning_rate").getD libDefault

/-! ### Concrete sample data

A small frame shaped like the heart-disease table (three rows, a sentinel
in `ca` and one in `thal`), used to instantiate the theorems below at
concrete inputs. -/

/-- A three-row sample frame with the sentinel in `ca` (row 1) and in
`thal` (row 2). -/
def dfEx : DataFrame :=
  [⟨"age", DType.numericType, [Val.num 63, Val.num 67, Val.num 67]⟩,
   ⟨"cp", DType.numericType, [Val.num 1, Val.num 4, Val.num 4]⟩,
   ⟨"ca", DType.objectType, [Val.num 0, Val.qmark, Val.num 3]⟩,
   ⟨"thal", DType.objectType, [Val.num 6, Val.num 3, Val.qmark]⟩,
   ⟨"hd", DType.numericType, [Val.num 0, Val.num 2, Val.num 1]⟩]

/-- A one-column sample feature frame for the one-hot theorems. -/
def XEx : DataFrame :=
  [⟨"cp", DType.numericType, [Val.num 1, Val.num 4, Val.num 4]⟩]

/-- A sample target vector with levels 0 and 2. -/
def yEx : List Val := [Val.num 0, Val.num 2]

/-! ## Lemmas and claim theorems -/

theorem fillQm_ne_qmark (v : Val) : fillQm v ≠ Val.qmark := by
  cases v <;> simp [fillQm]

theorem fillColFun_name (n : String) (c : Column) : (fillColFun n c).name = c.name := by
  unfold fillColFun
  split <;> rfl

theorem fillColFun_dtype (n : String) (c : Column) : (fillColFun n c).dtype = c.dtype := by
  unfold fillColFun
  split <;> rfl

theorem resolveMissing_get? (df : DataFrame) (i : Nat) :
    (resolveMissing df).get? i =
      (df.get? i).map (fun c => fillColFun "thal" (fillColFun "ca" c)) := by
  unfold resolveMissing fillCol
  rw [List.get?_eq_getElem?, List.getElem?_map, List.getElem?_map, Option.map_map,
    List.get?_eq_getElem?]
  rfl

/-- Claim C1: after the missing-value resolution step, a column named `ca`
or `thal` is the elementwise sentinel-fill of the original column, it no
longer contains the sentinel marker, and every cell that equalled the
sentinel has become the number `0` while all other cells kept their value. -/
theorem claim1_sentinel_fill (df : DataFrame) (i : Nat) (c c2 : Column)
    (hc : df.get? i = some c) (hc2 : (resolveMissing df).get? i = some c2)
    (hname : c.name = "ca" ∨ c.name = "thal") :
    c2.vals = c.vals.map fillQm ∧
    (∀ v ∈ c2.vals, v ≠ Val.qmark) ∧
    (∀ j v, c.vals.get? j = some v →
      c2.vals.get? j = some (if v = Val.qmark then Val.num 0 else v)) := by
  have h := resolveMissing_get? df i
  rw [hc, hc2] at h
  have hc2eq : c2 = fillColFun "thal" (fillColFun "ca" c) := by
    simpa using h
  have hvals : c2.vals = c.vals.map fillQm := by
    rcases hname with hca | hthal
    · have h1 : fillColFun "ca" c = { c with vals := c.vals.map fillQm } := by
        unfold fillColFun
        rw [if_pos hca]
      have h2 : fillColFun "thal" { c with vals := c.vals.map fillQm } =
          { c with vals := c.vals.map fillQm } := by
        unfold fillColFun
        rw [if_neg (by rw [hca]; decide)]
      rw [hc2eq, h1, h2]
    · have h1 : fillColFun "ca" c = c := by
        unfold fillColFun
        rw [if_neg (by rw [hthal]; decide)]
      have h2 : fillColFun "thal" c = { c with vals := c.vals.map fillQm } := by
        unfold fillColFun
        rw [if_pos hthal]
      rw [hc2eq, h1, h2]
  refine ⟨hvals, ?_, ?_⟩
  · intro v hv
    rw [hvals] at hv
    rcases List.mem_map.mp hv with ⟨w, _, rfl⟩
    exact fillQm_ne_qmark w
  · intro j v hj
    rw [List.get?_eq_getElem?] at hj
    rw [hvals, List.get?_eq_getElem?, List.getElem?_map, hj]
    rfl

/-- Instantiation of C1 on the sample frame: the filled `ca` column of
`dfEx` has no sentinel left, and the sentinel cell of row 1 became `0`. -/
theorem claim1_sentinel_fill_witness :
    (Column.mk "ca" DType.objectType [Val.num 0, Val.num 0, Val.num 3]).vals =
      (Column.mk "ca" DType.objectType [Val.num 0, Val.qmark, Val.num 3]).vals.map fillQm ∧
    (Column.mk "ca" DType.objectType [Val.num 0, Val.num 0, Val.num 3]).vals.get? 1 =
      some (if Val.qmark = Val.qmark then Val.num 0 else Val.qmark) := by
  have h := claim1_sentinel_fill dfEx 2
    (Column.mk "ca" DType.objectType [Val.num 0, Val.qmark, Val.num 3])
    (Column.mk "ca" DType.objectType [Val.num 0, Val.num 0, Val.num 3])
    (by decide) (by decide) (Or.inl rfl)
  exact ⟨h.1, h.2.2 1 Val.qmark (by decide)⟩

theorem binVal_num (q : ℚ) :
    binVal (Val.num q) = if 0 < q then Val.num 1 else Val.num q := rfl

theorem binVal_binVal (v : Val) : binVal (binVal v) = binVal v := by
  cases v with
  | qmark => rfl
  | num q =>
    by_cases h : 0 < q
    · rw [binVal_num, if_pos h, binVal_num, if_pos (by norm_num : (0:ℚ) < 1)]
    · rw [binVal_num, if_neg h, binVal_num, if_neg h]

/-- Claim C3: target binarization maps every value greater than zero to
`1`, leaves zero unchanged, acts cellwise in place, is idempotent, and on
a target vector of nonnegative levels every output value is `0` or `1`. -/
theorem claim3_binarize (y : List Val) :
    binarize (binarize y) = binarize y ∧
    (∀ j v, y.get? j = some v → (binarize y).get? j = some (binVal v)) ∧
    (∀ q : ℚ, 0 < q → binVal (Val.num q) = Val.num 1) ∧
    binVal (Val.num 0) = Val.num 0 ∧
    ((∀ v ∈ y, ∃ q : ℚ, v = Val.num q ∧ 0 ≤ q) →
      ∀ w ∈ binarize y, w = Val.num 0 ∨ w = Val.num 1) := by
  refine ⟨?_, ?_, ?_, ?_, ?_⟩
  · unfold binarize
    rw [List.map_map]
    exact List.map_congr_left (fun v _ => binVal_binVal v)
  · intro j v hj
    rw [List.get?_eq_getElem?] at hj
    unfold binarize
    rw [List.get?_eq_getElem?, List.getElem?_map, hj]
    rfl
  · intro q hq
    rw [binVal_num, if_pos hq]
  · rfl
  · intro hnn w hw
    rcases List.mem_map.mp hw with ⟨v, hv, rfl⟩
    rcases hnn v hv with ⟨q, rfl, hq⟩
    by_cases h : 0 < q
    · rw [binVal_num, if_pos h]
      exact Or.inr rfl
    · rw [binVal_num, if_neg h]
      left
      congr 1
      linarith

/-- Instantiation of C3 on the sample target vector `[0, 2]`. -/
theorem claim3_binarize_witness :
    binarize (binarize yEx) = binarize yEx ∧
    (binarize yEx).get? 1 = some (binVal (Val.num 2)) ∧
    (Val.num 1 = Val.num 0 ∨ Val.num 1 = Val.num 1) := by
  have h := claim3_binarize yEx
  refine ⟨h.1, h.2.1 1 (Val.num 2) (by decide), ?_⟩
  refine h.2.2.2.2 ?_ (Val.num 1) (by decide)
  intro v hv
  have hv2 : v = Val.num 0 ∨ v = Val.num 2 := by
    simpa [yEx] using hv
  rcases hv2 with rfl | rfl
  · exact ⟨0, rfl, le_refl 0⟩
  · exact ⟨2, rfl, by norm_num⟩

theorem fillColFun_get?_of_ne (n : String) (c : Column) (j : Nat) (v : Val)
    (hj : c.vals.get? j = some v) (hv : v ≠ Val.qmark) :
    (fillColFun n c).vals.get? j = some v := by
  rw [List.get?_eq_getElem?] at hj
  unfold fillColFun
  split
  · rw [List.get?_eq_getElem?]
    show (c.vals.map fillQm)[j]? = some v
    rw [List.getElem?_map, hj]
    simp [fillQm, hv]
  · rw [List.get?_eq_getElem?]
    exact hj

/-- Claim C7: the only mutations in the pipeline are the two documented
in-place corrections.  The missing-value fill changes a column only if it
is named `ca` or `thal`, never changes a column's name or dtype, and
never changes a cell whose value is not the sentinel; target binarization
rewrites only the separately copied target vector, leaving the loaded
frame and the feature matrix untouched. -/
theorem claim7_frame_conditions :
    (∀ (df : DataFrame) (i : Nat) (c c2 : Column),
      df.get? i = some c → (resolveMissing df).get? i = some c2 →
      ((c.name ≠ "ca" ∧ c.name ≠ "thal") → c2 = c) ∧
      c2.name = c.name ∧ c2.dtype = c.dtype ∧
      (∀ j v, c.vals.get? j = some v → v ≠ Val.qmark → c2.vals.get? j = some v)) ∧
    (∀ s : PipeState, (binarizeStep s).df = s.df ∧ (binarizeStep s).X = s.X) := by
  constructor
  · intro df i c c2 hc hc2
    have h := resolveMissing_get? df i
    rw [hc, hc2] at h
    have hc2eq : c2 = fillColFun "thal" (fillColFun "ca" c) := by
      simpa using h
    refine ⟨?_, ?_, ?_, ?_⟩
    · rintro ⟨hca, hthal⟩
      rw [hc2eq]
      unfold fillColFun
      rw [if_neg hca, if_neg hthal]
    · rw [hc2eq, fillColFun_name, fillColFun_name]
    · rw [hc2eq, fillColFun_dtype, fillColFun_dtype]
    · intro j v hj hv
      rw [hc2eq]
      exact fillColFun_get?_of_ne "thal" _ j v
        (fillColFun_get?_of_ne "ca" c j v hj hv) hv
  · intro s
    exact ⟨rfl, rfl⟩

/-- Instantiation of C7: the `age` column of the sample frame passes the
fill untouched, and the binarization step leaves the frame and the
feature matrix of the sample pipeline state unchanged. -/
theorem claim7_frame_conditions_witness :
    (Column.mk "age" DType.numericType [Val.num 63, Val.num 67, Val.num 67]) =
      (Column.mk "age" DType.numericType [Val.num 63, Val.num 67, Val.num 67]) ∧
    (binarizeStep (splitStep dfEx)).df = (splitStep dfEx).df ∧
    (binarizeStep (splitStep dfEx)).X = (splitStep dfEx).X := by
  have h := claim7_frame_conditions
  refine ⟨?_, h.2 (splitStep dfEx)⟩
  exact (h.1 dfEx 0
    (Column.mk "age" DType.numericType [Val.num 63, Val.num 67, Val.num 67])
    (Column.mk "age" DType.numericType [Val.num 63, Val.num 67, Val.num 67])
    (by decide) (by decide)).1 (by decide)

theorem mem_uniques {v : Val} : ∀ {l : List Val}, v ∈ uniques l ↔ v ∈ l := by
  intro l
  induction l with
  | nil => simp [uniques]
  | cons w ws ih =>
    rw [uniques]
    by_cases h : w ∈ uniques ws
    · rw [if_pos h]
      constructor
      · intro hv
        exact List.mem_cons.mpr (Or.inr (ih.mp hv))
      · intro hv
        rcases List.mem_cons.mp hv with rfl | hv2
        · exact h
        · exact ih.mpr hv2
    · rw [if_neg h]
      simp [List.mem_cons, ih]

theorem uniques_nodup (l : List Val) : (uniques l).Nodup := by
  induction l with
  | nil => simp [uniques]
  | cons w ws ih =>
    rw [uniques]
    by_cases h : w ∈ uniques ws
    · rw [if_pos h]
      exact ih
    · rw [if_neg h]
      exact List.nodup_cons.mpr ⟨h, ih⟩

theorem sum_indicator_eq_one (l : List Val) (v : Val) (hn : l.Nodup) (hv : v ∈ l) :
    (l.map (fun u => valToRat (indicatorVal v u))).sum = 1 := by
  induction l with
  | nil => cases hv
  | cons u us ih =>
    rw [List.map_cons, List.sum_cons]
    rcases List.mem_cons.mp hv with rfl | hv2
    · have hnot : v ∉ us := (List.nodup_cons.mp hn).1
      have hz : (us.map (fun u => valToRat (indicatorVal v u))).sum = 0 := by
        apply List.sum_eq_zero
        intro x hx
        rcases List.mem_map.mp hx with ⟨w, hw, rfl⟩
        have hne : v ≠ w := fun he => hnot (he ▸ hw)
        simp [indicatorVal, hne, valToRat]
      rw [hz]
      simp [indicatorVal, valToRat]
    · have hne : v ≠ u := fun he => (List.nodup_cons.mp hn).1 (he ▸ hv2)
      rw [ih (List.nodup_cons.mp hn).2 hv2]
      simp [indicatorVal, hne, valToRat]

theorem groupRowSum_dummyCols (c : Column) (i : Nat) (v : Val)
    (hi : c.vals.get? i = some v) :
    groupRowSum (dummyCols c) i = 1 := by
  rw [List.get?_eq_getElem?] at hi
  unfold groupRowSum dummyCols
  rw [List.map_map]
  have hmap : ((uniques c.vals).map
      ((fun col => valToRat ((col.vals.get? i).getD (Val.num 0))) ∘
        (fun u => Column.mk (dummyName c.name u) DType.boolType
          (c.vals.map (fun w => indicatorVal w u))))) =
      (uniques c.vals).map (fun u => valToRat (indicatorVal v u)) := by
    apply List.map_congr_left
    intro u _
    show valToRat (((c.vals.map (fun w => indicatorVal w u)).get? i).getD (Val.num 0)) =
      valToRat (indicatorVal v u)
    rw [List.get?_eq_getElem?, List.getElem?_map, hi]
    rfl
  rw [hmap]
  have hv : v ∈ c.vals := List.get?_mem (by rw [List.get?_eq_getElem?]; exact hi)
  exact sum_indicator_eq_one _ v (uniques_nodup _) (mem_uniques.mpr hv)

theorem mem_getDummies_left {df : DataFrame} {cols : List String} {c : Column}
    (hc : c ∈ df) (hname : c.name ∉ cols) : c ∈ getDummies df cols := by
  unfold getDummies
  apply List.mem_append_left
  exact List.mem_filter.mpr ⟨hc, by simpa using hname⟩

theorem mem_getDummies_group {df : DataFrame} {cols : List String} {n : String}
    (hn : n ∈ cols) {cf : Column}
    (hf : df.find? (fun c => decide (c.name = n)) = some cf)
    {col : Column} (hcol : col ∈ dummyCols cf) : col ∈ getDummies df cols := by
  unfold getDummies
  apply List.mem_append_right
  apply List.mem_flatMap.mpr
  refine ⟨n, hn, ?_⟩
  rw [hf]
  exact hcol

theorem mem_getDummies_cases {df : DataFrame} {cols : List String} {c : Column}
    (h : c ∈ getDummies df cols) :
    (c ∈ df ∧ c.name ∉ cols) ∨
      ∃ n ∈ cols, ∃ cf, df.find? (fun x => decide (x.name = n)) = some cf ∧
        c ∈ dummyCols cf := by
  unfold getDummies at h
  rcases List.mem_append.mp h with h1 | h2
  · left
    have h3 := List.mem_filter.mp h1
    exact ⟨h3.1, by simpa using h3.2⟩
  · right
    rcases List.mem_flatMap.mp h2 with ⟨n, hn, hc⟩
    refine ⟨n, hn, ?_⟩
    cases hf : df.find? (fun x => decide (x.name = n)) with
    | none => rw [hf] at hc; cases hc
    | some cf => rw [hf] at hc; exact ⟨cf, rfl, hc⟩

/-- Claim C2: one-hot expansion is applied to exactly the four columns of
`encodeCols`; every other column passes through unchanged; an expanded
column with `k` distinct observed values yields `k` binary indicator
columns named by concatenating the column name with each value; and the
row sum over each indicator group equals `1` for every observed row. -/
theorem claim2_one_hot (X : DataFrame) (cn : String) (c : Column)
    (hcn : cn ∈ encodeCols)
    (hfind : X.find? (fun x => decide (x.name = cn)) = some c)
    (i : Nat) (v : Val) (hi : c.vals.get? i = some v) :
    (∀ c2 ∈ X, c2.name ∉ encodeCols → c2 ∈ getDummies X encodeCols) ∧
    (dummyCols c).length = (uniques c.vals).length ∧
    (uniques c.vals).Nodup ∧
    (∀ u, u ∈ uniques c.vals ↔ u ∈ c.vals) ∧
    (∀ col ∈ dummyCols c, col ∈ getDummies X encodeCols) ∧
    (dummyCols c).map Column.name = (uniques c.vals).map (dummyName cn) ∧
    (∀ col ∈ dummyCols c, ∀ w ∈ col.vals, w = Val.num 0 ∨ w = Val.num 1) ∧
    groupRowSum (dummyCols c) i = 1 := by
  have hname : c.name = cn := by
    have := List.find?_some hfind
    simpa using this
  refine ⟨?_, ?_, uniques_nodup _, fun u => mem_uniques, ?_, ?_, ?_, ?_⟩
  · intro c2 hc2 hn2
    exact mem_getDummies_left hc2 hn2
  · unfold dummyCols
    rw [List.length_map]
  · intro col hcol
    exact mem_getDummies_group hcn hfind hcol
  · unfold dummyCols
    rw [List.map_map]
    apply List.map_congr_left
    intro u _
    show dummyName c.name u = dummyName cn u
    rw [hname]
  · intro col hcol w hw
    rcases List.mem_map.mp hcol with ⟨u, _, rfl⟩
    rcases List.mem_map.mp hw with ⟨x, _, rfl⟩
    unfold indicatorVal
    by_cases hxu : x = u
    · rw [if_pos hxu]
      exact Or.inr rfl
    · rw [if_neg hxu]
      exact Or.inl rfl
  · exact groupRowSum_dummyCols c i v hi

/-- Instantiation of C2 on the sample feature frame: the `cp` column with
two distinct observed values yields two indicator columns, and the
indicators of row 0 sum to `1`. -/
theorem claim2_one_hot_witness :
    (dummyCols (Column.mk "cp" DType.numericType
      [Val.num 1, Val.num 4, Val.num 4])).length =
      (uniques [Val.num 1, Val.num 4, Val.num 4]).length ∧
    groupRowSum (dummyCols (Column.mk "cp" DType.numericType
      [Val.num 1, Val.num 4, Val.num 4])) 0 = 1 := by
  have h := claim2_one_hot XEx "cp"
    (Column.mk "cp" DType.numericType [Val.num 1, Val.num 4, Val.num 4])
    (by decide) (by decide) 0 (Val.num 1) (by decide)
  exact ⟨h.2.1, h.2.2.2.2.2.2.2⟩

theorem find?_map_of_pred (F : Column → Column) (p : Column → Bool)
    (hF : ∀ c, p (F c) = p c) (l : List Column) :
    (l.map F).find? p = (l.find? p).map F := by
  induction l with
  | nil => rfl
  | cons c cs ih =>
    rw [List.map_cons]
    by_cases hp : p c = true
    · rw [List.find?_cons_of_pos _ (by rw [hF]; exact hp),
        List.find?_cons_of_pos _ hp]
      rfl
    · rw [List.find?_cons_of_neg _ (by rw [hF]; exact hp),
        List.find?_cons_of_neg _ hp, ih]

theorem find?_filter_of_imp (p q : Column → Bool)
    (himp : ∀ c, p c = true → q c = true) (l : List Column) :
    (l.filter q).find? p = l.find? p := by
  induction l with
  | nil => rfl
  | cons c cs ih =>
    by_cases hq : q c = true
    · rw [List.filter_cons_of_pos hq]
      by_cases hp : p c = true
      · rw [List.find?_cons_of_pos _ hp, List.find?_cons_of_pos _ hp]
      · rw [List.find?_cons_of_neg _ hp, List.find?_cons_of_neg _ hp, ih]
    · rw [List.filter_cons_of_neg (by simpa using hq), ih,
        List.find?_cons_of_neg _ (fun hp => hq (himp c hp))]

theorem resolveMissing_eq_map (df : DataFrame) :
    resolveMissing df =
      df.map (fun c => fillColFun "thal" (fillColFun "ca" c)) := by
  unfold resolveMissing fillCol
  rw [List.map_map]
  rfl

theorem fillColFun_vals_of_name (c : Column) (hname : c.name = "thal") :
    (fillColFun "thal" (fillColFun "ca" c)).vals = c.vals.map fillQm := by
  have h1 : fillColFun "ca" c = c := by
    unfold fillColFun
    rw [if_neg (by rw [hname]; decide)]
  rw [h1]
  unfold fillColFun
  rw [if_pos hname]

/-- Claim C10: because the sentinel fill writes `0` into `thal` before the
one-hot expansion, the expansion of `thal` contains an indicator column
named `thal_0` for the fill value itself, and a row whose `thal` was
originally the sentinel has that indicator set to `1` with the whole
`thal` indicator group summing to exactly `1` on that row. -/
theorem claim10_thal_zero_category (df : DataFrame) (c : Column) (i : Nat)
    (hfind : df.find? (fun x => decide (x.name = "thal")) = some c)
    (hq : c.vals.get? i = some Val.qmark) :
    ∃ cf, (getX (resolveMissing df)).find? (fun x => decide (x.name = "thal")) = some cf ∧
      cf.vals = c.vals.map fillQm ∧
      (∃ col ∈ getDummies (getX (resolveMissing df)) encodeCols,
        col.name = "thal_0" ∧ col.vals.get? i = some (Val.num 1)) ∧
      groupRowSum (dummyCols cf) i = 1 := by
  have hname : c.name = "thal" := by
    have := List.find?_some hfind
    simpa using this
  have hpF : ∀ x : Column,
      (fun x : Column => decide (x.name = "thal"))
        (fillColFun "thal" (fillColFun "ca" x)) =
      (fun x : Column => decide (x.name = "thal")) x := by
    intro x
    simp only [fillColFun_name]
  have hfindres : (resolveMissing df).find? (fun x => decide (x.name = "thal")) =
      some (fillColFun "thal" (fillColFun "ca" c)) := by
    rw [resolveMissing_eq_map, find?_map_of_pred _ _ hpF, hfind]
    rfl
  have hfindX : (getX (resolveMissing df)).find? (fun x => decide (x.name = "thal")) =
      some (fillColFun "thal" (fillColFun "ca" c)) := by
    unfold getX dropCol
    rw [find?_filter_of_imp _ _ ?_ _, hfindres]
    intro x hx
    have hx2 : x.name = "thal" := by simpa using hx
    simp [hx2]
  set cf := fillColFun "thal" (fillColFun "ca" c) with hcf
  have hcfvals : cf.vals = c.vals.map fillQm := fillColFun_vals_of_name c hname
  have hcfname : cf.name = "thal" := by
    rw [hcf, fillColFun_name, fillColFun_name, hname]
  have hq2 : cf.vals.get? i = some (Val.num 0) := by
    rw [List.get?_eq_getElem?] at hq ⊢
    rw [hcfvals, List.getElem?_map, hq]
    rfl
  have hmem0 : Val.num 0 ∈ uniques cf.vals :=
    mem_uniques.mpr (List.get?_mem hq2)
  refine ⟨cf, hfindX, hcfvals, ?_, groupRowSum_dummyCols cf i (Val.num 0) hq2⟩
  refine ⟨Column.mk (dummyName cf.name (Val.num 0)) DType.boolType
    (cf.vals.map (fun w => indicatorVal w (Val.num 0))), ?_, ?_, ?_⟩
  · exact mem_getDummies_group (by decide) hfindX
      (List.mem_map.mpr ⟨Val.num 0, hmem0, rfl⟩)
  · show dummyName cf.name (Val.num 0) = "thal_0"
    rw [hcfname]
    decide
  · show (cf.vals.map (fun w => indicatorVal w (Val.num 0))).get? i =
      some (Val.num 1)
    rw [List.get?_eq_getElem?] at hq2 ⊢
    rw [List.getElem?_map, hq2]
    rfl

/-- Instantiation of C10 on the sample frame, whose `thal` column has the
sentinel in row 2. -/
theorem claim10_thal_zero_category_witness :
    ∃ cf, (getX (resolveMissing dfEx)).find? (fun x => decide (x.name = "thal")) = some cf ∧
      cf.vals = [Val.num 6, Val.num 3, Val.qmark].map fillQm ∧
      (∃ col ∈ getDummies (getX (resolveMissing dfEx)) encodeCols,
        col.name = "thal_0" ∧ col.vals.get? 2 = some (Val.num 1)) ∧
      groupRowSum (dummyCols cf) 2 = 1 :=
  claim10_thal_zero_category dfEx
    (Column.mk "thal" DType.objectType [Val.num 6, Val.num 3, Val.qmark]) 2
    (by decide) (by decide)

theorem fillColFun_vals_length (n : String) (c : Column) :
    (fillColFun n c).vals.length = c.vals.length := by
  unfold fillColFun
  split
  · exact List.length_map _ _
  · rfl

theorem fillColFun_vals_cases (n : String) (c : Column) :
    (fillColFun n c).vals = c.vals.map fillQm ∨ (fillColFun n c).vals = c.vals := by
  unfold fillColFun
  split
  · exact Or.inl rfl
  · exact Or.inr rfl

theorem toNumericVal_some (v w : Val) (h : toNumericVal v = some w) : w = v := by
  cases v with
  | num q =>
    simp [toNumericVal] at h
    exact h.symm
  | qmark => cases h

theorem optMap_toNumericVal_eq (vs ws : List Val)
    (h : optMap toNumericVal vs = some ws) : ws = vs := by
  induction vs generalizing ws with
  | nil =>
    simp [optMap] at h
    exact h
  | cons v vt ih =>
    unfold optMap at h
    cases hv : toNumericVal v with
    | none => rw [hv] at h; cases h
    | some w =>
      rw [hv] at h
      cases hrec : optMap toNumericVal vt with
      | none => rw [hrec] at h; cases h
      | some wt =>
        rw [hrec] at h
        have hw := toNumericVal_some v w hv
        have hwt := ih wt hrec
        injection h with h2
        rw [← h2, hw, hwt]

theorem optMap_toNumericVal_some (vs : List Val) (h : ∀ v ∈ vs, v ≠ Val.qmark) :
    optMap toNumericVal vs = some vs := by
  induction vs with
  | nil => rfl
  | cons v vt ih =>
    have hv : toNumericVal v = some v := by
      cases v with
      | num q => rfl
      | qmark => exact absurd rfl (h Val.qmark (List.mem_cons_self _ _))
    unfold optMap
    rw [hv, ih (fun w hw => h w (List.mem_cons_of_mem v hw))]

theorem mapColsM_some_mem (f : Column → Option Column) (l l2 : DataFrame)
    (h : mapColsM f l = some l2) :
    ∀ c2 ∈ l2, ∃ c ∈ l, f c = some c2 := by
  induction l generalizing l2 with
  | nil =>
    intro c2 hc2
    simp [mapColsM] at h
    rw [h] at hc2
    cases hc2
  | cons c cs ih =>
    intro c2 hc2
    unfold mapColsM at h
    cases hf : f c with
    | none => rw [hf] at h; cases h
    | some c3 =>
      rw [hf] at h
      cases hrec : mapColsM f cs with
      | none => rw [hrec] at h; cases h
      | some cs2 =>
        rw [hrec] at h
        injection h with h2
        rw [← h2] at hc2
        rcases List.mem_cons.mp hc2 with rfl | hc2t
        · exact ⟨c, List.mem_cons_self _ _, hf⟩
        · rcases ih cs2 hrec c2 hc2t with ⟨c4, hc4, hfc4⟩
          exact ⟨c4, List.mem_cons_of_mem c hc4, hfc4⟩

theorem mapColsM_some_of_forall (f : Column → Option Column) (l : DataFrame)
    (h : ∀ c ∈ l, ∃ c2, f c = some c2) : ∃ l2, mapColsM f l = some l2 := by
  induction l with
  | nil => exact ⟨[], rfl⟩
  | cons c cs ih =>
    rcases h c (List.mem_cons_self _ _) with ⟨c2, hc2⟩
    rcases ih (fun x hx => h x (List.mem_cons_of_mem c hx)) with ⟨cs2, hcs2⟩
    refine ⟨c2 :: cs2, ?_⟩
    unfold mapColsM
    rw [hc2, hcs2]

theorem toNumericColumn_vals (c c2 : Column) (h : toNumericColumn c = some c2) :
    c2.name = c.name ∧ c2.dtype = DType.numericType ∧ c2.vals = c.vals := by
  unfold toNumericColumn at h
  cases hm : optMap toNumericVal c.vals with
  | none => rw [hm] at h; cases h
  | some ws =>
    rw [hm] at h
    injection h with h2
    rw [← h2]
    exact ⟨rfl, rfl, optMap_toNumericVal_eq _ _ hm⟩

theorem mem_resolveMissing_vals (df : DataFrame) (c2 : Column)
    (hc2 : c2 ∈ resolveMissing df) :
    ∃ c ∈ df, c2 = fillColFun "thal" (fillColFun "ca" c) := by
  rw [resolveMissing_eq_map] at hc2
  rcases List.mem_map.mp hc2 with ⟨c, hc, rfl⟩
  exact ⟨c, hc, rfl⟩

/-- Claim C4: the row count (the length of every column) is preserved from
load through missing-value resolution and feature formatting, and the row
order is preserved as well: every column of the one-hot output is a
pointwise map of a column of the loaded frame, so row `i` of the output
is computed from row `i` of the input only. -/
theorem claim4_rows_preserved (df : DataFrame) (n : Nat)
    (h : ∀ c ∈ df, c.vals.length = n) :
    (∀ c ∈ resolveMissing df, c.vals.length = n) ∧
    (∀ c ∈ getX (resolveMissing df), c.vals.length = n) ∧
    (∀ c ∈ getDummies (getX (resolveMissing df)) encodeCols, c.vals.length = n) ∧
    (∀ enc, toNumericCa (getDummies (getX (resolveMissing df)) encodeCols) = some enc →
      ∀ c ∈ enc, c.vals.length = n) ∧
    (∀ c2 ∈ getDummies (getX (resolveMissing df)) encodeCols,
      ∃ c ∈ df, ∃ g : Val → Val, c2.vals = c.vals.map g) := by
  have hres : ∀ c ∈ resolveMissing df, c.vals.length = n := by
    intro c2 hc2
    rcases mem_resolveMissing_vals df c2 hc2 with ⟨c, hc, rfl⟩
    rw [fillColFun_vals_length, fillColFun_vals_length]
    exact h c hc
  have hX : ∀ c ∈ getX (resolveMissing df), c.vals.length = n := by
    intro c hc
    exact hres c (List.mem_filter.mp hc).1
  have hgd : ∀ c ∈ getDummies (getX (resolveMissing df)) encodeCols,
      c.vals.length = n := by
    intro c hc
    rcases mem_getDummies_cases hc with ⟨hmem, _⟩ | ⟨m, _, cf, hcf, hdum⟩
    · exact hX c hmem
    · rcases List.mem_map.mp hdum with ⟨u, _, rfl⟩
      show (cf.vals.map _).length = n
      rw [List.length_map]
      exact hX cf (List.mem_of_find?_eq_some hcf)
  refine ⟨hres, hX, hgd, ?_, ?_⟩
  · intro enc henc c2 hc2
    rcases mapColsM_some_mem _ _ _ henc c2 hc2 with ⟨c, hc, hfc⟩
    by_cases hca : c.name = "ca"
    · rw [if_pos hca] at hfc
      rw [(toNumericColumn_vals c c2 hfc).2.2]
      exact hgd c hc
    · rw [if_neg hca] at hfc
      injection hfc with h2
      rw [← h2]
      exact hgd c hc
  · intro c2 hc2
    have hmapvals : ∀ c3 ∈ getX (resolveMissing df),
        ∃ c ∈ df, ∃ g : Val → Val, c3.vals = c.vals.map g := by
      intro c3 hc3
      rcases mem_resolveMissing_vals df c3 (List.mem_filter.mp hc3).1 with ⟨c, hc, rfl⟩
      rcases fillColFun_vals_cases "ca" c with h1 | h1 <;>
        rcases fillColFun_vals_cases "thal" (fillColFun "ca" c) with h2 | h2
      · exact ⟨c, hc, fillQm ∘ fillQm, by rw [h2, h1, List.map_map]⟩
      · exact ⟨c, hc, fillQm, by rw [h2, h1]⟩
      · exact ⟨c, hc, fillQm, by rw [h2, h1]⟩
      · exact ⟨c, hc, id, by rw [h2, h1, List.map_id]⟩
    rcases mem_getDummies_cases hc2 with ⟨hmem, _⟩ | ⟨m, _, cf, hcf, hdum⟩
    · exact hmapvals c2 hmem
    · rcases List.mem_map.mp hdum with ⟨u, _, rfl⟩
      rcases hmapvals cf (List.mem_of_find?_eq_some hcf) with ⟨c, hc, g, hg⟩
      refine ⟨c, hc, (fun w => indicatorVal w u) ∘ g, ?_⟩
      show cf.vals.map (fun w => indicatorVal w u) = _
      rw [hg, List.map_map]

/-- Instantiation of C4 on the sample frame: the filled `ca` column still
has all three rows after missing-value resolution. -/
theorem claim4_rows_preserved_witness :
    (Column.mk "ca" DType.objectType [Val.num 0, Val.num 0, Val.num 3]).vals.length = 3 :=
  (claim4_rows_preserved dfEx 3 (by decide)).1
    (Column.mk "ca" DType.objectType [Val.num 0, Val.num 0, Val.num 3]) (by decide)

theorem dummyName_length (p : String) (u : Val) :
    (dummyName p u).length = p.length + 1 + (valRepr u).length := by
  unfold dummyName
  rw [String.length_append, String.length_append]
  rfl

theorem dummyName_ne_of_le (p t : String) (u : Val) (hle : t.length ≤ p.length) :
    dummyName p u ≠ t := by
  intro h
  have h2 := congrArg String.length h
  rw [dummyName_length] at h2
  omega

theorem dummyName_ne_of_head (p t : String) (u : Val) (a b : Char)
    (tp tt : List Char) (hp : p.data = a :: tp) (ht : t.data = b :: tt)
    (hne : a ≠ b) : dummyName p u ≠ t := by
  intro h
  have h2 := congrArg String.data h
  unfold dummyName at h2
  rw [String.data_append, String.data_append, hp, ht, List.cons_append,
    List.cons_append] at h2
  injection h2 with h3 h4
  exact hne h3

theorem dummyName_not_mem_encodeCols (p : String) (hp : p ∈ encodeCols) (u : Val) :
    dummyName p u ∉ encodeCols := by
  intro hmem
  have hp4 : p = "cp" ∨ p = "restecg" ∨ p = "slope" ∨ p = "thal" := by
    simpa [encodeCols] using hp
  have hm4 : dummyName p u = "cp" ∨ dummyName p u = "restecg" ∨
      dummyName p u = "slope" ∨ dummyName p u = "thal" := by
    simpa [encodeCols] using hmem
  rcases hp4 with rfl | rfl | rfl | rfl <;> rcases hm4 with h | h | h | h <;>
    first
      | exact absurd h (dummyName_ne_of_le _ _ u (by decide))
      | exact absurd h (dummyName_ne_of_head _ _ u 'c' 'r' _ _ rfl rfl (by decide))
      | exact absurd h (dummyName_ne_of_head _ _ u 'c' 's' _ _ rfl rfl (by decide))
      | exact absurd h (dummyName_ne_of_head _ _ u 'c' 't' _ _ rfl rfl (by decide))
      | exact absurd h (dummyName_ne_of_head _ _ u 's' 'r' _ _ rfl rfl (by decide))
      | exact absurd h (dummyName_ne_of_head _ _ u 't' 'r' _ _ rfl rfl (by decide))
      | exact absurd h (dummyName_ne_of_head _ _ u 't' 's' _ _ rfl rfl (by decide))

theorem mem_dummyCols_shape {cf col : Column} (h : col ∈ dummyCols cf) :
    ∃ u ∈ uniques cf.vals,
      col = Column.mk (dummyName cf.name u) DType.boolType
        (cf.vals.map (fun w => indicatorVal w u)) := by
  rcases List.mem_map.mp h with ⟨u, hu, rfl⟩
  exact ⟨u, hu, rfl⟩

theorem getDummies_no_qmark_in_ca (df : DataFrame) (c : Column)
    (hc : c ∈ getDummies (getX (resolveMissing df)) encodeCols)
    (hca : c.name = "ca") : ∀ v ∈ c.vals, v ≠ Val.qmark := by
  intro v hv
  rcases mem_getDummies_cases hc with ⟨hmem, _⟩ | ⟨m, _, cf, hcf, hdum⟩
  · rcases mem_resolveMissing_vals df c (List.mem_filter.mp hmem).1 with ⟨c0, _, rfl⟩
    have hc0name : c0.name = "ca" := by
      rw [← fillColFun_name "ca" c0, ← fillColFun_name "thal" (fillColFun "ca" c0)]
      exact hca
    have hvals : (fillColFun "thal" (fillColFun "ca" c0)).vals = c0.vals.map fillQm := by
      have h1 : fillColFun "ca" c0 =
          { c0 with vals := c0.vals.map fillQm } := by
        unfold fillColFun
        rw [if_pos hc0name]
      rw [h1]
      unfold fillColFun
      rw [if_neg (by show c0.name ≠ "thal"; rw [hc0name]; decide)]
    rw [hvals] at hv
    rcases List.mem_map.mp hv with ⟨w, _, rfl⟩
    exact fillQm_ne_qmark w
  · rcases mem_dummyCols_shape hdum with ⟨u, _, rfl⟩
    rcases List.mem_map.mp hv with ⟨w, _, rfl⟩
    unfold indicatorVal
    split
    · exact fun h => Val.noConfusion h
    · exact fun h => Val.noConfusion h

/-- Claim C6: feature formatting always succeeds on a frame whose columns
other than `ca` and `thal` are numeric at load, every column of the
output feature matrix has a numeric or boolean dtype, and no column of
the output carries the name of one of the four expanded multi-category
columns. -/
theorem claim6_output_types (df : DataFrame)
    (hty : ∀ c ∈ df, c.name ≠ "ca" → c.name ≠ "thal" → c.dtype = DType.numericType) :
    ∃ enc, formatFeatures df = some enc ∧
      (∀ c ∈ enc, c.dtype = DType.numericType ∨ c.dtype = DType.boolType) ∧
      (∀ c ∈ enc, c.name ∉ encodeCols) := by
  have hsucc : ∀ c ∈ getDummies (getX (resolveMissing df)) encodeCols,
      ∃ c2, (if c.name = "ca" then toNumericColumn c else some c) = some c2 := by
    intro c hc
    by_cases hca : c.name = "ca"
    · rw [if_pos hca]
      have hnq := getDummies_no_qmark_in_ca df c hc hca
      refine ⟨Column.mk c.name DType.numericType c.vals, ?_⟩
      unfold toNumericColumn
      rw [optMap_toNumericVal_some c.vals hnq]
      rfl
    · rw [if_neg hca]
      exact ⟨c, rfl⟩
  rcases mapColsM_some_of_forall _ _ hsucc with ⟨enc, henc⟩
  refine ⟨enc, henc, ?_, ?_⟩
  · intro c2 hc2
    rcases mapColsM_some_mem _ _ _ henc c2 hc2 with ⟨c, hc, hfc⟩
    by_cases hca : c.name = "ca"
    · rw [if_pos hca] at hfc
      exact Or.inl (toNumericColumn_vals c c2 hfc).2.1
    · rw [if_neg hca] at hfc
      injection hfc with h2
      rw [← h2]
      rcases mem_getDummies_cases hc with ⟨hmem, hnot⟩ | ⟨m, _, cf, hcf, hdum⟩
      · rcases mem_resolveMissing_vals df c (List.mem_filter.mp hmem).1 with ⟨c0, hc0, rfl⟩
        left
        rw [fillColFun_dtype, fillColFun_dtype]
        have hn0 : (fillColFun "thal" (fillColFun "ca" c0)).name = c0.name := by
          rw [fillColFun_name, fillColFun_name]
        apply hty c0 hc0
        · rw [← hn0]; exact hca
        · rw [← hn0]
          intro hthal
          exact hnot (by rw [hthal]; decide)
      · rcases mem_dummyCols_shape hdum with ⟨u, _, rfl⟩
        exact Or.inr rfl
  · intro c2 hc2
    rcases mapColsM_some_mem _ _ _ henc c2 hc2 with ⟨c, hc, hfc⟩
    have hname : c2.name = c.name := by
      by_cases hca : c.name = "ca"
      · rw [if_pos hca] at hfc
        exact (toNumericColumn_vals c c2 hfc).1
      · rw [if_neg hca] at hfc
        injection hfc with h2
        rw [← h2]
    rw [hname]
    rcases mem_getDummies_cases hc with ⟨_, hnot⟩ | ⟨m, hm, cf, hcf, hdum⟩
    · exact hnot
    · rcases mem_dummyCols_shape hdum with ⟨u, _, rfl⟩
      have hcfname : cf.name = m := by
        have := List.find?_some hcf
        simpa using this
      show dummyName cf.name u ∉ encodeCols
      rw [hcfname]
      exact dummyName_not_mem_encodeCols m hm u

/-- Instantiation of C6 on the sample frame. -/
theorem claim6_output_types_witness :
    ∃ enc, formatFeatures dfEx = some enc ∧
      (∀ c ∈ enc, c.dtype = DType.numericType ∨ c.dtype = DType.boolType) ∧
      (∀ c ∈ enc, c.name ∉ encodeCols) :=
  claim6_output_types dfEx (by decide)

theorem le_selectAux {α : Type} (f : α → ℚ) (b : α) (l : List α) :
    f b ≤ f (selectAux f b l) := by
  induction l generalizing b with
  | nil => exact le_refl _
  | cons c cs ih =>
    show f b ≤ f (selectAux f (if f b < f c then c else b) cs)
    by_cases h : f b < f c
    · rw [if_pos h]
      exact le_of_lt (lt_of_lt_of_le h (ih c))
    · rw [if_neg h]
      exact ih b

theorem selectAux_le_of_mem {α : Type} (f : α → ℚ) (b : α) (l : List α) :
    ∀ c ∈ l, f c ≤ f (selectAux f b l) := by
  induction l generalizing b with
  | nil => intro c hc; cases hc
  | cons c cs ih =>
    intro x hx
    show f x ≤ f (selectAux f (if f b < f c then c else b) cs)
    rcases List.mem_cons.mp hx with rfl | hx2
    · by_cases h : f b < f x
      · rw [if_pos h]
        exact le_selectAux f x cs
      · rw [if_neg h]
        exact le_trans (not_lt.mp h) (le_selectAux f b cs)
    · exact ih _ x hx2

theorem selectAux_mem {α : Type} (f : α → ℚ) (b : α) (l : List α) :
    selectAux f b l ∈ b :: l := by
  induction l generalizing b with
  | nil => exact List.mem_cons_self _ _
  | cons c cs ih =>
    show selectAux f (if f b < f c then c else b) cs ∈ b :: c :: cs
    by_cases h : f b < f c
    · rw [if_pos h]
      exact List.mem_cons_of_mem b (ih c)
    · rw [if_neg h]
      rcases List.mem_cons.mp (ih b) with he | hm
      · rw [he]
        exact List.mem_cons_self _ _
      · exact List.mem_cons_of_mem b (List.mem_cons_of_mem c hm)

theorem selectAux_first {α : Type} (f : α → ℚ) :
    ∀ (l : List α) (b : α),
      ∃ n, (b :: l).get? n = some (selectAux f b l) ∧
        ∀ c ∈ (b :: l).take n, f c < f (selectAux f b l) := by
  intro l
  induction l with
  | nil =>
    intro b
    refine ⟨0, rfl, ?_⟩
    intro c hc
    simp at hc
  | cons c cs ih =>
    intro b
    by_cases h : f b < f c
    · rcases ih c with ⟨n, hget, htake⟩
      refine ⟨n + 1, ?_, ?_⟩
      · rw [List.get?_cons_succ, selectAux, if_pos h]
        exact hget
      · intro x hx
        rw [selectAux, if_pos h]
        rw [List.take_succ_cons] at hx
        rcases List.mem_cons.mp hx with rfl | hx2
        · exact lt_of_lt_of_le h (le_selectAux f c cs)
        · exact htake x hx2
    · rcases ih b with ⟨n, hget, htake⟩
      cases n with
      | zero =>
        refine ⟨0, ?_, ?_⟩
        · rw [selectAux, if_neg h]
          exact hget
        · intro x hx
          simp at hx
      | succ k =>
        rw [List.get?_cons_succ] at hget
        rw [List.take_succ_cons] at htake
        refine ⟨k + 2, ?_, ?_⟩
        · rw [List.get?_cons_succ, List.get?_cons_succ, selectAux, if_neg h]
          exact hget
        · intro x hx
          rw [selectAux, if_neg h]
          rw [List.take_succ_cons, List.take_succ_cons] at hx
          rcases List.mem_cons.mp hx with rfl | hx2
          · exact htake x (List.mem_cons_self _ _)
          · rcases List.mem_cons.mp hx2 with rfl | hx3
            · exact lt_of_le_of_lt (not_lt.mp h) (htake b (List.mem_cons_self _ _))
            · exact htake x (List.mem_cons_of_mem b hx3)

theorem selectBest_spec {α : Type} (f : α → ℚ) (l : List α) (hne : l ≠ []) :
    ∃ r, selectBest f l = some r ∧ r ∈ l ∧ (∀ c ∈ l, f c ≤ f r) ∧
      ∃ n, l.get? n = some r ∧ ∀ c ∈ l.take n, f c < f r := by
  cases l with
  | nil => exact absurd rfl hne
  | cons c cs =>
    refine ⟨selectAux f c cs, rfl, selectAux_mem f c cs, ?_, selectAux_first f cs c⟩
    intro x hx
    rcases List.mem_cons.mp hx with rfl | hx2
    · exact le_selectAux f x cs
    · exact selectAux_le_of_mem f c cs x hx2

theorem mem_paramGridEnum (d e : Nat) (lr g r : ℚ) (hd : d ∈ maxDepthGrid)
    (he : e ∈ nEstimatorsGrid) (hl : lr ∈ learningRateGrid) (hg : g ∈ gammaGrid)
    (hr : r ∈ regLambdaGrid) : HyperConfig.mk d e lr g r ∈ paramGridEnum := by
  unfold paramGridEnum
  refine List.mem_flatMap.mpr ⟨d, hd, ?_⟩
  refine List.mem_flatMap.mpr ⟨e, he, ?_⟩
  refine List.mem_flatMap.mpr ⟨lr, hl, ?_⟩
  refine List.mem_flatMap.mpr ⟨g, hg, ?_⟩
  exact List.mem_map.mpr ⟨r, hr, rfl⟩

set_option maxRecDepth 20000 in
theorem paramGridEnum_length : paramGridEnum.length = 6 * 4 * 3 * 4 * 4 := by
  rfl

/-- Claim C5 (modelled from the spec; the `GridSearchCV` invocation is
commented out in the source): the hyperparameter search evaluates the
full Cartesian product of the five candidate grids by 5-fold
cross-validated average score and returns a configuration of the grid
whose average score is greater than or equal to that of every other
candidate, with every candidate enumerated before it scoring strictly
less (first-encountered tie-breaking). -/
theorem claim5_grid_search (foldScore : HyperConfig → Fin 5 → ℚ) :
    ∃ best, gridSearchBest foldScore = some best ∧
      best ∈ paramGridEnum ∧
      (∀ c ∈ paramGridEnum, cvAverage foldScore c ≤ cvAverage foldScore best) ∧
      (∃ n, paramGridEnum.get? n = some best ∧
        ∀ c ∈ paramGridEnum.take n,
          cvAverage foldScore c < cvAverage foldScore best) ∧
      (∀ d ∈ maxDepthGrid, ∀ e ∈ nEstimatorsGrid, ∀ lr ∈ learningRateGrid,
        ∀ g ∈ gammaGrid, ∀ r ∈ regLambdaGrid,
          HyperConfig.mk d e lr g r ∈ paramGridEnum) ∧
      paramGridEnum.length = 6 * 4 * 3 * 4 * 4 := by
  have hne : paramGridEnum ≠ [] :=
    List.ne_nil_of_mem (mem_paramGridEnum 3 50 (1/10) 0 0
      (List.mem_cons_self _ _) (List.mem_cons_self _ _) (List.mem_cons_self _ _)
      (List.mem_cons_self _ _) (List.mem_cons_self _ _))
  rcases selectBest_spec (cvAverage foldScore) paramGridEnum hne with
    ⟨r, hsel, hmem, hle, hfirst⟩
  exact ⟨r, hsel, hmem, hle, hfirst,
    fun d hd e he lr hl g hg rr hr => mem_paramGridEnum d e lr g rr hd he hl hg hr,
    paramGridEnum_length⟩

/-- Instantiation of C5 at the constant fold score `0`. -/
theorem claim5_grid_search_witness :
    ∃ best, gridSearchBest (fun _ _ => 0) = some best ∧
      best ∈ paramGridEnum ∧
      (∀ c ∈ paramGridEnum,
        cvAverage (fun _ _ => 0) c ≤ cvAverage (fun _ _ => 0) best) ∧
      (∃ n, paramGridEnum.get? n = some best ∧
        ∀ c ∈ paramGridEnum.take n,
          cvAverage (fun _ _ => 0) c < cvAverage (fun _ _ => 0) best) ∧
      (∀ d ∈ maxDepthGrid, ∀ e ∈ nEstimatorsGrid, ∀ lr ∈ learningRateGrid,
        ∀ g ∈ gammaGrid, ∀ r ∈ regLambdaGrid,
          HyperConfig.mk d e lr g r ∈ paramGridEnum) ∧
      paramGridEnum.length = 6 * 4 * 3 * 4 * 4 :=
  claim5_grid_search (fun _ _ => 0)

/-- Claim C9: both optimized-model constructions pass the learning rate
under the keyword `learn_rate` rather than the library's parameter name
`learning_rate`, so the intended value `0.1` is never bound to the
library's learning-rate parameter and the library default is used
whatever it is. -/
theorem claim9_learn_rate_ignored :
    optimizedModelKwargs.lookup "learn_rate" = some (1/10) ∧
    optimizedModelKwargs.lookup "learning_rate" = none ∧
    singleTreeModelKwargs.lookup "learn_rate" = some (1/10) ∧
    singleTreeModelKwargs.lookup "learning_rate" = none ∧
    (∀ d : ℚ, effectiveLearningRate optimizedModelKwargs d = d ∧
      effectiveLearningRate singleTreeModelKwargs d = d) := by
  have h1 : optimizedModelKwargs.lookup "learning_rate" = none := by rfl
  have h2 : singleTreeModelKwargs.lookup "learning_rate" = none := by rfl
  refine ⟨by rfl, h1, by rfl, h2, ?_⟩
  intro d
  unfold effectiveLearningRate
  rw [h1, h2]
  exact ⟨rfl, rfl⟩

/-- Instantiation of C9 at the library default `0.3`: both model
constructions train with `0.3`, not the intended `0.1`. -/
theorem claim9_learn_rate_ignored_witness :
    effectiveLearningRate optimizedModelKwargs (3/10) = 3/10 ∧
    effectiveLearningRate singleTreeModelKwargs (3/10) = 3/10 :=
  claim9_learn_rate_ignored.2.2.2.2 (3/10)

end HeartPipeline
